import Mathlib

/-!
# Grid-graph adjacency index (`Neighbors`), `Node`, `Position` and `BiDirectionalMap`

A shallow embedding of `src/fold/src/neighbors.cpp` and of the classes of
`src/fold/src/network.cpp`.

* A `Node*` is modelled by its address (`NodePtr`); two nodes are the same node
  exactly when their addresses are equal (`Node::operator==`).
* A `std::unordered_map<K, V>` is modelled by a finite association list with
  pairwise distinct keys (`AList`).  Its iteration order is the order of the
  list.  The contents of a map are described through lookups; where two maps are
  stated equal they are equal as lists, hence also as maps.
* `node->get_position()` reads the `position` field of the pointee.  At the level
  of `Neighbors` the memory is represented by the function `pos` that gives the
  position currently stored in the node at each address.
* A coordinate of type `int` is an integer; the arithmetic of
  `convert_direction` is taken modulo 2^32 (`int_wrap`).
* A thrown `std::out_of_range` is the `error` case of `Except`, carrying the
  message.
-/

namespace Fold

/-- A `Position` is a pair of `int` coordinates (`struct Position`). -/
structure Position where
  x : Int
  y : Int
deriving DecidableEq, Repr

/-- Value-initialised `Position`, as produced by `operator[]` of a map on a
missing key: both coordinates are zero. -/
def Position.default : Position := ⟨0, 0⟩

/-- Address of a `Node` object (`Node*`). -/
abbrev NodePtr := Nat

/-- The two private members of `class Neighbors`:
`neighbors : unordered_map<Position, Node*>` and
`neighbors_inverted : unordered_map<Node*, Position>`. -/
structure Neighbors where
  neighbors : AList (fun _ : Position => NodePtr)
  neighbors_inverted : AList (fun _ : NodePtr => Position)

instance : DecidableEq Neighbors := fun a b =>
  decidable_of_iff
    (a.neighbors.entries = b.neighbors.entries ∧
      a.neighbors_inverted.entries = b.neighbors_inverted.entries)
    ⟨fun h => by
        cases a; cases b
        simp only [Neighbors.mk.injEq]
        exact ⟨AList.ext h.1, AList.ext h.2⟩,
      fun h => by subst h; exact ⟨rfl, rfl⟩⟩

namespace Neighbors

/-- `Neighbors() = default`: both maps empty. -/
def empty : Neighbors := ⟨∅, ∅⟩

/-- `bool is_neighbor(Node* node)`:
`neighbors_inverted.find(node) != neighbors_inverted.end()`. -/
def is_neighbor (s : Neighbors) (node : NodePtr) : Bool :=
  (s.neighbors_inverted.lookup node).isSome

/-- `bool is_neighbor(Position position)`:
`neighbors.find(position) != neighbors.end()`. -/
def is_neighbor_at (s : Neighbors) (position : Position) : Bool :=
  (s.neighbors.lookup position).isSome

/-- `void add(Node* node)`: reads the node's current position, then
`neighbors[position] = node; neighbors_inverted[node] = position;`. -/
def add (pos : NodePtr → Position) (s : Neighbors) (node : NodePtr) : Neighbors :=
  let position := pos node
  { neighbors := s.neighbors.insert position node
    neighbors_inverted := s.neighbors_inverted.insert node position }

/-- The read `m[key]` of `std::unordered_map::operator[]`: when the key is
missing a value-initialised entry is inserted first.  Returns the value read
and the map after the access. -/
def subscript (m : AList (fun _ : NodePtr => Position)) (key : NodePtr) :
    Position × AList (fun _ : NodePtr => Position) :=
  match m.lookup key with
  | some v => (v, m)
  | none => (Position.default, m.insert key Position.default)

/-- `void remove(Node* node)`:
`Position position = neighbors_inverted[node]; neighbors.erase(position);
neighbors_inverted.erase(node);`. -/
def remove (s : Neighbors) (node : NodePtr) : Neighbors :=
  let r := subscript s.neighbors_inverted node
  { neighbors := s.neighbors.erase r.1
    neighbors_inverted := r.2.erase node }

/-- `std::vector<Node*> get_neighbors()`: the keys of `neighbors_inverted` in
iteration order. -/
def get_neighbors (s : Neighbors) : List NodePtr :=
  s.neighbors_inverted.keys

/-- `void update()`: copies `neighbors_inverted`, clears both maps and calls
`add` on every key of the copy. -/
def update (pos : NodePtr → Position) (s : Neighbors) : Neighbors :=
  let old_neighbors := s.neighbors_inverted
  old_neighbors.keys.foldl (add pos) empty

/-- One call on a `Neighbors` object. -/
inductive Call where
  | add (node : NodePtr)
  | remove (node : NodePtr)
  | update
deriving DecidableEq, Repr

/-- Effect of one call; `pos` gives the position stored in each node. -/
def call (pos : NodePtr → Position) (s : Neighbors) : Call → Neighbors
  | Call.add node => add pos s node
  | Call.remove node => remove s node
  | Call.update => update pos s

/-- The index obtained from the empty one by a finite sequence of calls. -/
def run (pos : NodePtr → Position) (calls : List Call) : Neighbors :=
  calls.foldl (call pos) empty

/-- The part of the inverse relation that every sequence of calls preserves
when the nodes keep their positions: an entry `p ↦ n` of the position mapping
is matched by the entry `n ↦ p` of the identity mapping, and every recorded
position is the position stored in the node. -/
def Consistent (pos : NodePtr → Position) (s : Neighbors) : Prop :=
  (∀ (p : Position) (n : NodePtr),
      s.neighbors.lookup p = some n → s.neighbors_inverted.lookup n = some p) ∧
  (∀ (n : NodePtr) (p : Position), s.neighbors_inverted.lookup n = some p → p = pos n)

/-- The converse part of the inverse relation: an entry `n ↦ p` of the
identity mapping is matched by the entry `p ↦ n` of the position mapping. -/
def Backward (s : Neighbors) : Prop :=
  ∀ (n : NodePtr) (p : Position),
    s.neighbors_inverted.lookup n = some p → s.neighbors.lookup p = some n

end Neighbors

/-- Members of `class Node`: `Position position` and `Neighbors* neighbors`.
The pointer is either `nullptr` (`none`) or designates the index owned by this
node; nothing in the class hands the pointer to another node. -/
structure Node where
  position : Position
  neighbors : Option Neighbors
deriving DecidableEq

/-- Contents of the memory: the `Node` object stored at each address. -/
abbrev Memory := NodePtr → Node

namespace Node

/-- Constructor `Node(int x, int y) : position(x, y), neighbors(nullptr)`. -/
def new (x y : Int) : Node := ⟨⟨x, y⟩, none⟩

/-- `Position get_position()`: `return this->position;`. -/
def get_position (mem : Memory) (this : NodePtr) : Position :=
  (mem this).position

/-- `void Node::connect(Node* node)`:
`if (neighbors && !neighbors->is_neighbor(node)) neighbors->add(node);`. -/
def connect (mem : Memory) (this node : NodePtr) : Memory :=
  match (mem this).neighbors with
  | some nb =>
    if !nb.is_neighbor node then
      Function.update mem this
        { mem this with neighbors := some (nb.add (get_position mem) node) }
    else mem
  | none => mem

/-- `std::vector<Node*> get_neighbors()`:
`return this->neighbors->get_neighbors();`.  The pointer is dereferenced without
a check; `none` stands for the dereference of `nullptr`. -/
def get_neighbors (mem : Memory) (this : NodePtr) : Option (List NodePtr) :=
  match (mem this).neighbors with
  | some nb => some nb.get_neighbors
  | none => none

end Node

/-- The three nodes built at the start of `main`:
`node1(1, 2)`, `node2(3, 4)`, `node3(5, 6)`, at addresses 1, 2 and 3. -/
def mainMemory : Memory := fun p =>
  if p = 1 then Node.new 1 2 else if p = 2 then Node.new 3 4 else Node.new 5 6

/-- A memory in which every node owns an allocated, empty index: the node at
address 1 stands at (1,2), every other node at (3,4). -/
def indexedMemory : Memory := fun p =>
  if p = 1 then ⟨⟨1, 2⟩, some Neighbors.empty⟩ else ⟨⟨3, 4⟩, some Neighbors.empty⟩

/-- Range of the C++ type `int` (32 bits, two's complement). -/
def INT_MIN : Int := -2147483648

/-- Largest value of the C++ type `int`. -/
def INT_MAX : Int := 2147483647

/-- Value stored by an `int` operation whose exact result is `z`: the
representative of `z` modulo 2^32 that lies in the range of `int`. -/
def int_wrap (z : Int) : Int :=
  (z + 2147483648) % 4294967296 - 2147483648

/-- The coordinates of a position are values of the type `int`. -/
def Position.representable (p : Position) : Prop :=
  (INT_MIN ≤ p.x ∧ p.x ≤ INT_MAX) ∧ (INT_MIN ≤ p.y ∧ p.y ≤ INT_MAX)

/-- `enum Direction { UP, DOWN, RIGHT, LEFT }`. -/
inductive Direction where
  | UP
  | DOWN
  | RIGHT
  | LEFT
deriving DecidableEq, Repr

/-- `Position convert_direction(Direction direction)`: copies the receiver
into `new_position`, applies `+= 1` or `-= 1` to one coordinate according to
the `switch`, and returns the copy. -/
def Position.convert_direction (p : Position) (direction : Direction) : Position :=
  let new_position : Position := ⟨p.x, p.y⟩
  match direction with
  | Direction.UP => { new_position with y := int_wrap (new_position.y + 1) }
  | Direction.DOWN => { new_position with y := int_wrap (new_position.y - 1) }
  | Direction.LEFT => { new_position with x := int_wrap (new_position.x - 1) }
  | Direction.RIGHT => { new_position with x := int_wrap (new_position.x + 1) }

/-- `bool operator==(const Position& other) const`:
`return x == other.x && y == other.y;`. -/
def Position.op_eq (p other : Position) : Bool :=
  p.x == other.x && p.y == other.y

/-- Calls `connect` in sequence; each element is the pair (receiver,
argument) of one call. -/
def Node.connect_all (mem : Memory) (calls : List (NodePtr × NodePtr)) : Memory :=
  calls.foldl (fun m c => Node.connect m c.1 c.2) mem

/-- Every `remove` of the sequence is applied to a node that the index tracks
at the time of the call. -/
def Neighbors.removes_tracked (pos : NodePtr → Position) :
    Neighbors → List Neighbors.Call → Bool
  | _, [] => true
  | s, c :: cs =>
    (match c with
      | Neighbors.Call.remove node => s.is_neighbor node
      | _ => true) && removes_tracked pos (Neighbors.call pos s c) cs

/-- The two private members of `class BiDirectionalMap<KeyType, ValueType>`:
`forwardMap : unordered_map<KeyType, ValueType>` and
`reverseMap : unordered_map<ValueType, KeyType>`. -/
structure BiDirectionalMap (KeyType ValueType : Type) where
  forwardMap : AList (fun _ : KeyType => ValueType)
  reverseMap : AList (fun _ : ValueType => KeyType)

namespace BiDirectionalMap

/-- A default-constructed `BiDirectionalMap`: both maps empty. -/
def empty {KeyType ValueType : Type} : BiDirectionalMap KeyType ValueType := ⟨∅, ∅⟩

/-- `void insert(const KeyType &key, const ValueType &value)`:
`forwardMap[key] = value; reverseMap[value] = key;`. -/
def insert {KeyType ValueType : Type} [DecidableEq KeyType] [DecidableEq ValueType]
    (m : BiDirectionalMap KeyType ValueType) (key : KeyType) (value : ValueType) :
    BiDirectionalMap KeyType ValueType :=
  { forwardMap := m.forwardMap.insert key value
    reverseMap := m.reverseMap.insert value key }

/-- `const ValueType &getValueByKey(const KeyType &key) const`: the value found
by `forwardMap.find(key)`, or `throw std::out_of_range("Key not found.")`. -/
def getValueByKey {KeyType ValueType : Type} [DecidableEq KeyType]
    (m : BiDirectionalMap KeyType ValueType) (key : KeyType) : Except String ValueType :=
  match m.forwardMap.lookup key with
  | some value => Except.ok value
  | none => Except.error "Key not found."

/-- `const KeyType &getKeyByValue(const ValueType &value) const`: the key found
by `reverseMap.find(value)`, or `throw std::out_of_range("Value not found.")`. -/
def getKeyByValue {KeyType ValueType : Type} [DecidableEq ValueType]
    (m : BiDirectionalMap KeyType ValueType) (value : ValueType) : Except String KeyType :=
  match m.reverseMap.lookup value with
  | some key => Except.ok key
  | none => Except.error "Value not found."

/-- `bool containsKey(const KeyType &key) const`:
`forwardMap.find(key) != forwardMap.end()`. -/
def containsKey {KeyType ValueType : Type} [DecidableEq KeyType]
    (m : BiDirectionalMap KeyType ValueType) (key : KeyType) : Bool :=
  (m.forwardMap.lookup key).isSome

/-- `bool containsValue(const ValueType &value) const`:
`reverseMap.find(value) != reverseMap.end()`. -/
def containsValue {KeyType ValueType : Type} [DecidableEq ValueType]
    (m : BiDirectionalMap KeyType ValueType) (value : ValueType) : Bool :=
  (m.reverseMap.lookup value).isSome

/-- Calls `insert` in sequence on the pairs of the list. -/
def insert_all {KeyType ValueType : Type} [DecidableEq KeyType] [DecidableEq ValueType]
    (m : BiDirectionalMap KeyType ValueType) (pairs : List (KeyType × ValueType)) :
    BiDirectionalMap KeyType ValueType :=
  pairs.foldl (fun acc kv => acc.insert kv.1 kv.2) m

end BiDirectionalMap

/-- The map built in `main`: `BiDirectionalMap<int, std::string> bimap` after
`insert(1, "One")`, `insert(2, "Two")`, `insert(3, "Three")`. -/
def mainBimap : BiDirectionalMap Int String :=
  BiDirectionalMap.insert_all BiDirectionalMap.empty [(1, "One"), (2, "Two"), (3, "Three")]

end Fold

namespace Fold

open Neighbors

/-! ## Lookup lemmas for the map operations -/

theorem subscript_of_lookup_some {m : AList (fun _ : NodePtr => Position)} {key : NodePtr}
    {v : Position} (h : m.lookup key = some v) : subscript m key = (v, m) := by
  simp [subscript, h]

theorem subscript_of_lookup_none {m : AList (fun _ : NodePtr => Position)} {key : NodePtr}
    (h : m.lookup key = none) :
    subscript m key = (Position.default, m.insert key Position.default) := by
  simp [subscript, h]

theorem subscript_lookup_ne (m : AList (fun _ : NodePtr => Position)) {key k : NodePtr}
    (h : k ≠ key) : (subscript m key).2.lookup k = m.lookup k := by
  cases hm : m.lookup key with
  | none => rw [subscript_of_lookup_none hm]; exact AList.lookup_insert_ne h
  | some v => rw [subscript_of_lookup_some hm]

theorem add_neighbors_lookup_self (pos : NodePtr → Position) (s : Neighbors) (n : NodePtr) :
    (add pos s n).neighbors.lookup (pos n) = some n := by
  simp [add, AList.lookup_insert]

theorem add_neighbors_lookup_ne (pos : NodePtr → Position) (s : Neighbors) (n : NodePtr)
    {q : Position} (h : q ≠ pos n) :
    (add pos s n).neighbors.lookup q = s.neighbors.lookup q := by
  simp [add, AList.lookup_insert_ne h]

theorem add_inverted_lookup_self (pos : NodePtr → Position) (s : Neighbors) (n : NodePtr) :
    (add pos s n).neighbors_inverted.lookup n = some (pos n) := by
  simp [add, AList.lookup_insert]

theorem add_inverted_lookup_ne (pos : NodePtr → Position) (s : Neighbors) (n : NodePtr)
    {m : NodePtr} (h : m ≠ n) :
    (add pos s n).neighbors_inverted.lookup m = s.neighbors_inverted.lookup m := by
  simp [add, AList.lookup_insert_ne h]

theorem remove_inverted_lookup_self (s : Neighbors) (n : NodePtr) :
    (remove s n).neighbors_inverted.lookup n = none := by
  simp [remove, AList.lookup_erase]

theorem remove_inverted_lookup_ne (s : Neighbors) (n : NodePtr) {m : NodePtr} (h : m ≠ n) :
    (remove s n).neighbors_inverted.lookup m = s.neighbors_inverted.lookup m := by
  simp only [remove]
  rw [AList.lookup_erase_ne h, subscript_lookup_ne _ h]

theorem remove_neighbors_of_tracked {s : Neighbors} {n : NodePtr} {p : Position}
    (h : s.neighbors_inverted.lookup n = some p) :
    (remove s n).neighbors = s.neighbors.erase p := by
  simp [remove, subscript_of_lookup_some h]

/-! ## `add`, `remove`, `get_neighbors` -/

/-- C5: after `add(n)`, with `p` the current position of `n`, the position
mapping maps `p` to `n` and the identity mapping maps `n` to `p`, so both
`is_neighbor` overloads answer true, whatever was stored before; the position
mapping is unchanged at every position other than `p` and the identity mapping
is unchanged for every node other than `n`. -/
theorem C5_add_sets_both_entries (pos : NodePtr → Position) (s : Neighbors) (n : NodePtr) :
    (add pos s n).neighbors.lookup (pos n) = some n ∧
    (add pos s n).neighbors_inverted.lookup n = some (pos n) ∧
    (add pos s n).is_neighbor n = true ∧
    (add pos s n).is_neighbor_at (pos n) = true ∧
    (∀ q : Position, q ≠ pos n →
      (add pos s n).neighbors.lookup q = s.neighbors.lookup q) ∧
    (∀ m : NodePtr, m ≠ n →
      (add pos s n).neighbors_inverted.lookup m = s.neighbors_inverted.lookup m) := by
  refine ⟨add_neighbors_lookup_self pos s n, add_inverted_lookup_self pos s n, ?_, ?_, ?_, ?_⟩
  · simp [is_neighbor, add_inverted_lookup_self]
  · simp [is_neighbor_at, add_neighbors_lookup_self]
  · intro q hq; exact add_neighbors_lookup_ne pos s n hq
  · intro m hm; exact add_inverted_lookup_ne pos s n hm

/-- C6: when `n` is tracked with recorded position `p`, after `remove(n)`
neither `is_neighbor(n)` nor `is_neighbor(p)` holds, `n` is not listed by
`get_neighbors()`, and every other node keeps its entry of the identity
mapping (tracked or not, with the same recorded position). -/
theorem C6_remove_tracked (s : Neighbors) (n : NodePtr) (p : Position)
    (h : s.neighbors_inverted.lookup n = some p) :
    (remove s n).is_neighbor n = false ∧
    (remove s n).is_neighbor_at p = false ∧
    n ∉ (remove s n).get_neighbors ∧
    (∀ m : NodePtr, m ≠ n →
      (remove s n).neighbors_inverted.lookup m = s.neighbors_inverted.lookup m) := by
  refine ⟨?_, ?_, ?_, ?_⟩
  · simp [is_neighbor, remove_inverted_lookup_self]
  · simp [is_neighbor_at, remove_neighbors_of_tracked h, AList.lookup_erase]
  · have h0 := remove_inverted_lookup_self s n
    rw [AList.lookup_eq_none, AList.mem_keys] at h0
    exact h0
  · intro m hm; exact remove_inverted_lookup_ne s n hm

/-- C6 at a concrete index: nodes 7 and 8 tracked at (3,4) and (5,6), then
`remove(7)`. -/
theorem C6_remove_tracked_witness :
    (remove (run (fun n => if n = 7 then ⟨3, 4⟩ else ⟨5, 6⟩) [Call.add 7, Call.add 8])
        7).is_neighbor 7 = false ∧
    (remove (run (fun n => if n = 7 then ⟨3, 4⟩ else ⟨5, 6⟩) [Call.add 7, Call.add 8])
        7).is_neighbor_at ⟨3, 4⟩ = false ∧
    7 ∉ (remove (run (fun n => if n = 7 then ⟨3, 4⟩ else ⟨5, 6⟩) [Call.add 7, Call.add 8])
        7).get_neighbors ∧
    (∀ m : NodePtr, m ≠ 7 →
      (remove (run (fun n => if n = 7 then ⟨3, 4⟩ else ⟨5, 6⟩) [Call.add 7, Call.add 8])
        7).neighbors_inverted.lookup m =
      (run (fun n => if n = 7 then ⟨3, 4⟩ else ⟨5, 6⟩)
        [Call.add 7, Call.add 8]).neighbors_inverted.lookup m) :=
  C6_remove_tracked _ 7 ⟨3, 4⟩ (by decide)

/-- C9: the sequence returned by `get_neighbors()` has no duplicates, has as
many elements as the identity mapping has entries, and contains exactly the
nodes for which `is_neighbor` is true. -/
theorem C9_get_neighbors (s : Neighbors) :
    s.get_neighbors.Nodup ∧
    s.get_neighbors.length = s.neighbors_inverted.entries.length ∧
    (∀ n : NodePtr, n ∈ s.get_neighbors ↔ s.is_neighbor n = true) := by
  refine ⟨s.neighbors_inverted.keys_nodup, ?_, ?_⟩
  · simp [get_neighbors, AList.keys, List.keys]
  · intro n
    simp only [get_neighbors, is_neighbor]
    rw [AList.lookup_isSome, AList.mem_keys]

/-! ## `update` -/

theorem foldl_add_inverted_lookup (pos : NodePtr → Position) (l : List NodePtr) :
    ∀ (s0 : Neighbors) (n : NodePtr),
      (l.foldl (add pos) s0).neighbors_inverted.lookup n =
        if n ∈ l then some (pos n) else s0.neighbors_inverted.lookup n := by
  induction l with
  | nil => intro s0 n; simp
  | cons a l ih =>
    intro s0 n
    rw [List.foldl_cons, ih]
    by_cases hl : n ∈ l
    · simp [hl]
    · by_cases ha : n = a
      · subst ha; simp [hl, add_inverted_lookup_self]
      · simp [hl, ha, add_inverted_lookup_ne pos s0 a ha]

theorem foldl_add_neighbors_lookup (pos : NodePtr → Position) (l : List NodePtr) :
    ∀ (s0 : Neighbors) (p : Position) (m : NodePtr),
      (l.foldl (add pos) s0).neighbors.lookup p = some m →
        (m ∈ l ∧ pos m = p) ∨ s0.neighbors.lookup p = some m := by
  induction l with
  | nil => intro s0 p m h; exact Or.inr h
  | cons a l ih =>
    intro s0 p m h
    rw [List.foldl_cons] at h
    rcases ih _ p m h with ⟨hm, hp⟩ | h1
    · exact Or.inl ⟨List.mem_cons_of_mem _ hm, hp⟩
    · by_cases hpa : p = pos a
      · subst hpa
        rw [add_neighbors_lookup_self] at h1
        have hma : a = m := Option.some.inj h1
        subst hma
        exact Or.inl ⟨List.mem_cons_self _ _, rfl⟩
      · rw [add_neighbors_lookup_ne pos s0 a hpa] at h1
        exact Or.inr h1

theorem add_is_neighbor_at (pos : NodePtr → Position) (s : Neighbors) (a : NodePtr)
    (p : Position) :
    (add pos s a).is_neighbor_at p = true ↔ pos a = p ∨ s.is_neighbor_at p = true := by
  by_cases hpa : p = pos a
  · subst hpa; simp [is_neighbor_at, add_neighbors_lookup_self]
  · have hne : ¬ pos a = p := fun h => hpa h.symm
    simp [is_neighbor_at, add_neighbors_lookup_ne pos s a hpa, hne]

theorem foldl_add_is_neighbor_at (pos : NodePtr → Position) (l : List NodePtr) :
    ∀ (s0 : Neighbors) (p : Position),
      (l.foldl (add pos) s0).is_neighbor_at p = true ↔
        (∃ n, n ∈ l ∧ pos n = p) ∨ s0.is_neighbor_at p = true := by
  induction l with
  | nil => intro s0 p; simp
  | cons a l ih =>
    intro s0 p
    rw [List.foldl_cons, ih, add_is_neighbor_at]
    constructor
    · rintro (⟨n, hn, hp⟩ | hp | h)
      · exact Or.inl ⟨n, List.mem_cons_of_mem _ hn, hp⟩
      · exact Or.inl ⟨a, List.mem_cons_self _ _, hp⟩
      · exact Or.inr h
    · rintro (⟨n, hn, hp⟩ | h)
      · rcases List.mem_cons.mp hn with rfl | hn
        · exact Or.inr (Or.inl hp)
        · exact Or.inl ⟨n, hn, hp⟩
      · exact Or.inr (Or.inr h)

theorem is_neighbor_iff_mem_keys (s : Neighbors) (n : NodePtr) :
    s.is_neighbor n = true ↔ n ∈ s.neighbors_inverted.keys := by
  simp only [is_neighbor]
  rw [AList.lookup_isSome, AList.mem_keys]

theorem empty_is_neighbor_at (p : Position) : empty.is_neighbor_at p = false := by
  simp [is_neighbor_at, empty]

theorem update_inverted_lookup (pos : NodePtr → Position) (s : Neighbors) (n : NodePtr) :
    (update pos s).neighbors_inverted.lookup n =
      if s.is_neighbor n = true then some (pos n) else none := by
  simp only [update]
  rw [foldl_add_inverted_lookup]
  by_cases h : n ∈ s.neighbors_inverted.keys
  · simp [h, (is_neighbor_iff_mem_keys s n).mpr h]
  · have h2 : ¬ s.is_neighbor n = true := fun hn => h ((is_neighbor_iff_mem_keys s n).mp hn)
    simp [h, h2, empty]

theorem update_is_neighbor_at (pos : NodePtr → Position) (s : Neighbors) (p : Position) :
    (update pos s).is_neighbor_at p = true ↔
      ∃ n, s.is_neighbor n = true ∧ pos n = p := by
  simp only [update]
  rw [foldl_add_is_neighbor_at]
  constructor
  · rintro (⟨n, hn, hp⟩ | h)
    · exact ⟨n, (is_neighbor_iff_mem_keys s n).mpr hn, hp⟩
    · rw [empty_is_neighbor_at] at h; exact absurd h (by decide)
  · rintro ⟨n, hn, hp⟩
    exact Or.inl ⟨n, (is_neighbor_iff_mem_keys s n).mp hn, hp⟩

/-- C7: after `update()` the tracked nodes are the same as before, every
tracked node is recorded at its current position, and `is_neighbor(p)` holds
exactly when some tracked node currently stands at `p`, in which case the
position mapping maps `p` to a tracked node whose current position is `p`. -/
theorem C7_update (pos : NodePtr → Position) (s : Neighbors) :
    (∀ n : NodePtr, (update pos s).is_neighbor n = s.is_neighbor n) ∧
    (∀ n : NodePtr, s.is_neighbor n = true →
      (update pos s).neighbors_inverted.lookup n = some (pos n)) ∧
    (∀ p : Position, (update pos s).is_neighbor_at p = true ↔
      ∃ n, s.is_neighbor n = true ∧ pos n = p) ∧
    (∀ p : Position, (update pos s).is_neighbor_at p = true →
      ∃ n, (update pos s).neighbors.lookup p = some n ∧
        s.is_neighbor n = true ∧ pos n = p) := by
  refine ⟨?_, ?_, update_is_neighbor_at pos s, ?_⟩
  · intro n
    have h := update_inverted_lookup pos s n
    have hu : (update pos s).is_neighbor n =
        ((update pos s).neighbors_inverted.lookup n).isSome := rfl
    rw [hu, h]
    cases hn : s.is_neighbor n with
    | true => simp
    | false => simp
  · intro n hn
    rw [update_inverted_lookup, if_pos hn]
  · intro p hp
    simp only [is_neighbor_at, Option.isSome_iff_exists] at hp
    obtain ⟨m, hm⟩ := hp
    refine ⟨m, hm, ?_⟩
    have h := foldl_add_neighbors_lookup pos s.neighbors_inverted.keys empty p m hm
    rcases h with ⟨hk, hpm⟩ | h0
    · exact ⟨(is_neighbor_iff_mem_keys s m).mpr hk, hpm⟩
    · simp [empty] at h0

/-- C7 at a concrete index: nodes 7 and 8 were added while both stood at
(1,1); node 7 now stands at (3,4) and node 8 at (5,6). -/
theorem C7_update_witness :
    (update (fun n => if n = 7 then ⟨3, 4⟩ else ⟨5, 6⟩)
        (run (fun _ => ⟨1, 1⟩) [Call.add 7, Call.add 8])).neighbors_inverted.lookup 7
      = some ⟨3, 4⟩ :=
  (C7_update (fun n => if n = 7 then ⟨3, 4⟩ else ⟨5, 6⟩)
    (run (fun _ => ⟨1, 1⟩) [Call.add 7, Call.add 8])).2.1 7 (by decide)

/-- C8 fails as stated: nodes 0 and 1 are both tracked and recorded at (1,1);
node 0 is moved to (2,2) and `update()` is called.  Node 1 still stands at
(1,1), so `is_neighbor((1,1))` stays true. -/
theorem C8_counterexample :
    (run (fun _ => ⟨1, 1⟩) [Call.add 0, Call.add 1]).neighbors_inverted.lookup 0
      = some ⟨1, 1⟩ ∧
    (⟨2, 2⟩ : Position) ≠ ⟨1, 1⟩ ∧
    ¬ ((update (Function.update (fun _ => ⟨1, 1⟩) 0 ⟨2, 2⟩)
          (run (fun _ => ⟨1, 1⟩) [Call.add 0, Call.add 1])).is_neighbor_at ⟨2, 2⟩ = true ∧
       (update (Function.update (fun _ => ⟨1, 1⟩) 0 ⟨2, 2⟩)
          (run (fun _ => ⟨1, 1⟩) [Call.add 0, Call.add 1])).is_neighbor_at ⟨1, 1⟩ = false) := by
  decide

/-- C8 (amended): when a tracked node `n` recorded at `p_old` is moved to
`p_new ≠ p_old` and `update()` is called, `is_neighbor(p_new)` is true; and
`is_neighbor(p_old)` is false provided no other tracked node currently stands
at `p_old`. -/
theorem C8_update_after_move (pos : NodePtr → Position) (s : Neighbors) (n : NodePtr)
    (p_old p_new : Position)
    (htracked : s.neighbors_inverted.lookup n = some p_old)
    (hmove : p_new ≠ p_old) :
    (update (Function.update pos n p_new) s).is_neighbor_at p_new = true ∧
    ((∀ m : NodePtr, s.is_neighbor m = true → m ≠ n → pos m ≠ p_old) →
      (update (Function.update pos n p_new) s).is_neighbor_at p_old = false) := by
  have hn : s.is_neighbor n = true := by simp [is_neighbor, htracked]
  constructor
  · rw [update_is_neighbor_at]
    exact ⟨n, hn, by simp⟩
  · intro hothers
    cases hb : (update (Function.update pos n p_new) s).is_neighbor_at p_old with
    | false => rfl
    | true =>
      exfalso
      obtain ⟨m, hm, hp⟩ := (update_is_neighbor_at _ s p_old).mp hb
      by_cases hmn : m = n
      · subst hmn
        simp at hp
        exact hmove hp
      · rw [Function.update_noteq hmn] at hp
        exact hothers m hm hmn hp

/-- C8 (amended) at a concrete index: node 7 recorded at (3,4) and node 8 at
(5,6); node 7 is moved to (9,9). -/
theorem C8_update_after_move_witness :
    (update (Function.update (fun n => if n = 7 then ⟨3, 4⟩ else ⟨5, 6⟩) 7 ⟨9, 9⟩)
        (run (fun n => if n = 7 then ⟨3, 4⟩ else ⟨5, 6⟩)
          [Call.add 7, Call.add 8])).is_neighbor_at ⟨9, 9⟩ = true ∧
    (update (Function.update (fun n => if n = 7 then ⟨3, 4⟩ else ⟨5, 6⟩) 7 ⟨9, 9⟩)
        (run (fun n => if n = 7 then ⟨3, 4⟩ else ⟨5, 6⟩)
          [Call.add 7, Call.add 8])).is_neighbor_at ⟨3, 4⟩ = false :=
  have h := C8_update_after_move (fun n => if n = 7 then ⟨3, 4⟩ else ⟨5, 6⟩)
    (run (fun n => if n = 7 then ⟨3, 4⟩ else ⟨5, 6⟩) [Call.add 7, Call.add 8])
    7 ⟨3, 4⟩ ⟨9, 9⟩ (by decide) (by decide)
  ⟨h.1, h.2 (fun m _ hm => by simp [hm])⟩

/-! ## The relation between the two mappings in reachable states -/

theorem consistent_empty (pos : NodePtr → Position) : Consistent pos empty := by
  constructor
  · intro p n h; simp [empty] at h
  · intro n p h; simp [empty] at h

theorem consistent_add (pos : NodePtr → Position) (s : Neighbors) (a : NodePtr)
    (h : Consistent pos s) : Consistent pos (add pos s a) := by
  obtain ⟨h1, h2⟩ := h
  have key : ∀ (n : NodePtr) (p : Position),
      (add pos s a).neighbors_inverted.lookup n = some p → p = pos n := by
    intro n p hl
    by_cases hna : n = a
    · subst hna
      rw [add_inverted_lookup_self] at hl
      exact (Option.some.inj hl).symm
    · rw [add_inverted_lookup_ne pos s a hna] at hl
      exact h2 n p hl
  refine ⟨?_, key⟩
  intro p n hl
  by_cases hpa : p = pos a
  · subst hpa
    rw [add_neighbors_lookup_self] at hl
    have hna : a = n := Option.some.inj hl
    subst hna
    exact add_inverted_lookup_self pos s a
  · rw [add_neighbors_lookup_ne pos s a hpa] at hl
    have hinv := h1 p n hl
    by_cases hna : n = a
    · subst hna
      exact absurd (h2 n p hinv) hpa
    · rw [add_inverted_lookup_ne pos s a hna]
      exact hinv

theorem consistent_remove (pos : NodePtr → Position) (s : Neighbors) (a : NodePtr)
    (h : Consistent pos s) : Consistent pos (remove s a) := by
  obtain ⟨h1, h2⟩ := h
  constructor
  · intro p n hl
    by_cases hna : n = a
    · subst hna
      exfalso
      simp only [remove] at hl
      by_cases hp : p = (subscript s.neighbors_inverted n).1
      · rw [hp, AList.lookup_erase] at hl
        exact absurd hl (by simp)
      · rw [AList.lookup_erase_ne hp] at hl
        have hinv := h1 p n hl
        rw [subscript_of_lookup_some hinv] at hp
        exact hp rfl
    · rw [remove_inverted_lookup_ne s a hna]
      simp only [remove] at hl
      by_cases hp : p = (subscript s.neighbors_inverted a).1
      · rw [hp, AList.lookup_erase] at hl
        exact absurd hl (by simp)
      · rw [AList.lookup_erase_ne hp] at hl
        exact h1 p n hl
  · intro n p hl
    by_cases hna : n = a
    · subst hna
      rw [remove_inverted_lookup_self] at hl
      exact absurd hl (by simp)
    · rw [remove_inverted_lookup_ne s a hna] at hl
      exact h2 n p hl

theorem consistent_foldl_add (pos : NodePtr → Position) (l : List NodePtr) :
    ∀ s0 : Neighbors, Consistent pos s0 → Consistent pos (l.foldl (add pos) s0) := by
  induction l with
  | nil => intro s0 h; exact h
  | cons a l ih => intro s0 h; exact ih _ (consistent_add pos s0 a h)

theorem consistent_update (pos : NodePtr → Position) (s : Neighbors) :
    Consistent pos (update pos s) :=
  consistent_foldl_add pos _ empty (consistent_empty pos)

theorem consistent_call (pos : NodePtr → Position) (s : Neighbors) (c : Call)
    (h : Consistent pos s) : Consistent pos (call pos s c) := by
  cases c with
  | add node => exact consistent_add pos s node h
  | remove node => exact consistent_remove pos s node h
  | update => exact consistent_update pos s

theorem consistent_foldl_call (pos : NodePtr → Position) (calls : List Call) :
    ∀ s0 : Neighbors, Consistent pos s0 → Consistent pos (calls.foldl (call pos) s0) := by
  induction calls with
  | nil => intro s0 h; exact h
  | cons c calls ih => intro s0 h; exact ih _ (consistent_call pos s0 c h)

theorem consistent_run (pos : NodePtr → Position) (calls : List Call) :
    Consistent pos (run pos calls) :=
  consistent_foldl_call pos calls empty (consistent_empty pos)

theorem entries_length_le_of_forward {s : Neighbors}
    (h : ∀ (p : Position) (n : NodePtr),
      s.neighbors.lookup p = some n → s.neighbors_inverted.lookup n = some p) :
    s.neighbors.entries.length ≤ s.neighbors_inverted.entries.length := by
  have hlook : ∀ x ∈ s.neighbors.entries, s.neighbors.lookup x.1 = some x.2 := by
    intro x hx
    exact (@AList.mem_lookup_iff _ _ _ x.1 x.2 s.neighbors).mpr hx
  have hnd : (s.neighbors.entries.map Sigma.snd).Nodup := by
    refine List.Nodup.map_on ?_ s.neighbors.nodupKeys.nodup
    intro x hx y hy hxy
    have hx1 := h _ _ (hlook x hx)
    have hy1 := h _ _ (hlook y hy)
    rw [hxy] at hx1
    have hfst : x.1 = y.1 := Option.some.inj (hx1.symm.trans hy1)
    cases x; cases y
    simp only at hfst hxy
    subst hfst; subst hxy; rfl
  have hsub : s.neighbors.entries.map Sigma.snd ⊆ s.neighbors_inverted.keys := by
    intro n hn
    obtain ⟨x, hx, rfl⟩ := List.mem_map.mp hn
    have hx1 := h _ _ (hlook x hx)
    rw [← AList.mem_keys, ← AList.lookup_isSome, hx1]
    rfl
  have hle := (hnd.subperm hsub).length_le
  simpa [AList.keys, List.keys] using hle

/-- C1 fails as stated: three calls on two nodes that both stand at
(1,1): `add(0)`, `add(1)`, `remove(0)`.  The second `add` overwrites the entry
of the position mapping, the `remove` erases it; node 1 stays in the identity
mapping.  The recorded position (1,1) is then no key of the position mapping,
and the sizes are 0 and 1. -/
theorem C1_counterexample :
    ¬ (∀ p : Position,
        p ∈ (run (fun _ => ⟨1, 1⟩) [Call.add 0, Call.add 1, Call.remove 0]).neighbors.keys ↔
        ∃ n : NodePtr,
          (run (fun _ => ⟨1, 1⟩)
            [Call.add 0, Call.add 1, Call.remove 0]).neighbors_inverted.lookup n = some p) ∧
    (run (fun _ => ⟨1, 1⟩) [Call.add 0, Call.add 1, Call.remove 0]).neighbors.entries.length ≠
      (run (fun _ => ⟨1, 1⟩)
        [Call.add 0, Call.add 1, Call.remove 0]).neighbors_inverted.entries.length := by
  constructor
  · intro h
    have hk := (h ⟨1, 1⟩).mpr ⟨1, by decide⟩
    revert hk
    decide
  · decide

/-- C1 (amended): in every index reached from the empty one by `add`,
`remove` and `update` calls (node positions fixed), every key of the position
mapping is a position recorded in the identity mapping, and the position
mapping has at most as many entries as the identity mapping. -/
theorem C1_position_keys_subset (pos : NodePtr → Position) (calls : List Call) :
    (∀ p : Position, p ∈ (run pos calls).neighbors.keys →
      ∃ n : NodePtr, (run pos calls).neighbors_inverted.lookup n = some p) ∧
    (run pos calls).neighbors.entries.length ≤
      (run pos calls).neighbors_inverted.entries.length := by
  have hc := consistent_run pos calls
  refine ⟨?_, entries_length_le_of_forward hc.1⟩
  intro p hp
  rw [← AList.mem_keys, ← AList.lookup_isSome, Option.isSome_iff_exists] at hp
  obtain ⟨n, hn⟩ := hp
  exact ⟨n, hc.1 p n hn⟩

/-- C1 (amended) at a concrete run: the key (3,4) of the position mapping is
recorded in the identity mapping. -/
theorem C1_position_keys_subset_witness :
    ∃ n : NodePtr,
      (run (fun n => if n = 7 then ⟨3, 4⟩ else ⟨5, 6⟩)
        [Call.add 7, Call.add 8, Call.update]).neighbors_inverted.lookup n = some ⟨3, 4⟩ :=
  (C1_position_keys_subset (fun n => if n = 7 then ⟨3, 4⟩ else ⟨5, 6⟩)
    [Call.add 7, Call.add 8, Call.update]).1 ⟨3, 4⟩ (by decide)

/-- C2 fails as stated: nodes 0 and 1 both stand at (1,1); after `add(0)`,
`add(1)` the identity mapping maps node 0 to (1,1) while the position mapping
maps (1,1) to node 1. -/
theorem C2_counterexample :
    ¬ ((run (fun _ => ⟨1, 1⟩) [Call.add 0, Call.add 1]).neighbors.lookup ⟨1, 1⟩ = some 0 ↔
       (run (fun _ => ⟨1, 1⟩) [Call.add 0, Call.add 1]).neighbors_inverted.lookup 0
         = some ⟨1, 1⟩) := by
  decide

/-- C2 (amended): in every index reached from the empty one by `add`,
`remove` and `update` calls (node positions fixed), if the position mapping
maps `p` to `n` then the identity mapping maps `n` to `p`. -/
theorem C2_position_entry_has_inverse (pos : NodePtr → Position) (calls : List Call)
    (p : Position) (n : NodePtr)
    (h : (run pos calls).neighbors.lookup p = some n) :
    (run pos calls).neighbors_inverted.lookup n = some p :=
  (consistent_run pos calls).1 p n h

/-- C2 (amended) at a concrete run. -/
theorem C2_position_entry_has_inverse_witness :
    (run (fun n => if n = 7 then ⟨3, 4⟩ else ⟨5, 6⟩)
      [Call.add 7, Call.add 8, Call.remove 9]).neighbors_inverted.lookup 7 = some ⟨3, 4⟩ :=
  C2_position_entry_has_inverse (fun n => if n = 7 then ⟨3, 4⟩ else ⟨5, 6⟩)
    [Call.add 7, Call.add 8, Call.remove 9] ⟨3, 4⟩ 7 (by decide)

/-! ## `Node::connect` -/

/-- C3 on the nodes of `main`: `node1` and `node2` come from `Node(x, y)`, so
`node1.neighbors` is `nullptr`; `node1.connect(&node2)` changes nothing,
`node1` still has no index, and `node1.get_neighbors()` dereferences
`nullptr` instead of returning a sequence that contains `node2`. -/
theorem C3_connect_on_constructed_nodes :
    Node.connect mainMemory 1 2 = mainMemory ∧
    (Node.connect mainMemory 1 2 1).neighbors = none ∧
    Node.get_neighbors (Node.connect mainMemory 1 2) 1 = none := by
  refine ⟨rfl, by decide, by decide⟩

theorem connect_of_tracked {mem : Memory} {a b : NodePtr} {nb : Neighbors}
    (hnb : (mem a).neighbors = some nb) (htr : nb.is_neighbor b = true) :
    Node.connect mem a b = mem := by
  simp [Node.connect, hnb, htr]

theorem connect_of_null {mem : Memory} {a : NodePtr} (b : NodePtr)
    (hnb : (mem a).neighbors = none) : Node.connect mem a b = mem := by
  simp [Node.connect, hnb]

theorem connect_of_untracked {mem : Memory} {a b : NodePtr} {nb : Neighbors}
    (hnb : (mem a).neighbors = some nb) (htr : nb.is_neighbor b = false) :
    Node.connect mem a b =
      Function.update mem a
        { mem a with neighbors := some (nb.add (Node.get_position mem) b) } := by
  simp [Node.connect, hnb, htr]

/-- With an allocated, empty index the call `A.connect(B)` does track `B`: by
identity, by the position of `B`, and as the only element of
`get_neighbors()`. -/
theorem connect_on_empty_index (mem : Memory) (a b : NodePtr)
    (h : (mem a).neighbors = some Neighbors.empty) :
    ∃ nb : Neighbors, (Node.connect mem a b a).neighbors = some nb ∧
      nb.is_neighbor b = true ∧
      nb.is_neighbor_at (Node.get_position mem b) = true ∧
      Node.get_neighbors (Node.connect mem a b) a = some [b] := by
  have htr : Neighbors.empty.is_neighbor b = false := by simp [is_neighbor, empty]
  refine ⟨Neighbors.empty.add (Node.get_position mem) b, ?_, ?_, ?_, ?_⟩
  · rw [connect_of_untracked h htr]; simp
  · simp [is_neighbor, add_inverted_lookup_self]
  · simp [is_neighbor_at, add_neighbors_lookup_self]
  · rw [connect_of_untracked h htr]
    simp [Node.get_neighbors, Neighbors.get_neighbors, add, empty]

/-- C4: when the index of `A` already tracks `B` by identity, `A.connect(B)`
leaves the whole memory, hence the index of `A` and the result of
`get_neighbors()`, unchanged; and two successive calls `A.connect(B)` give the
same memory as one, whether the index of `A` is present or absent. -/
theorem C4_connect_idempotent (mem : Memory) (a b : NodePtr) :
    (∀ nb : Neighbors, (mem a).neighbors = some nb → nb.is_neighbor b = true →
      Node.connect mem a b = mem ∧
      Node.get_neighbors (Node.connect mem a b) a = Node.get_neighbors mem a) ∧
    Node.connect (Node.connect mem a b) a b = Node.connect mem a b := by
  constructor
  · intro nb hnb htr
    rw [connect_of_tracked hnb htr]
    exact ⟨rfl, rfl⟩
  · cases hnb : (mem a).neighbors with
    | none =>
      rw [connect_of_null b hnb, connect_of_null b hnb]
    | some nb =>
      cases htr : nb.is_neighbor b with
      | true => rw [connect_of_tracked hnb htr, connect_of_tracked hnb htr]
      | false =>
        rw [connect_of_untracked hnb htr]
        refine @connect_of_tracked _ a b (nb.add (Node.get_position mem) b) ?_ ?_
        · simp
        · simp [is_neighbor, add_inverted_lookup_self]

/-- C4 at a concrete memory: after a first `connect` the index of node 1
tracks node 2, and a second `connect` changes nothing. -/
theorem C4_connect_idempotent_witness :
    Node.connect (Node.connect indexedMemory 1 2) 1 2 = Node.connect indexedMemory 1 2 ∧
    Node.get_neighbors (Node.connect (Node.connect indexedMemory 1 2) 1 2) 1 =
      Node.get_neighbors (Node.connect indexedMemory 1 2) 1 :=
  (C4_connect_idempotent (Node.connect indexedMemory 1 2) 1 2).1
    (Neighbors.add (Node.get_position indexedMemory) Neighbors.empty 2)
    (by decide) (by decide)

/-- C10: for distinct nodes `A` and `B`, `A.connect(B)` leaves the object `B`
unchanged (its position and its index), so `B` tracks `A` afterwards only if
it did before. -/
theorem C10_connect_one_directional (mem : Memory) (a b : NodePtr) (hab : a ≠ b) :
    Node.connect mem a b b = mem b ∧
    (Node.connect mem a b b).position = (mem b).position ∧
    (Node.connect mem a b b).neighbors = (mem b).neighbors := by
  have h : Node.connect mem a b b = mem b := by
    cases hnb : (mem a).neighbors with
    | none => rw [connect_of_null b hnb]
    | some nb =>
      cases htr : nb.is_neighbor b with
      | true => rw [connect_of_tracked hnb htr]
      | false =>
        rw [connect_of_untracked hnb htr]
        exact Function.update_noteq (Ne.symm hab) _ _
  exact ⟨h, by rw [h], by rw [h]⟩

/-- C10 at a concrete memory: node 1 connects to node 2, whose index stays
empty while node 1 comes to track node 2. -/
theorem C10_connect_one_directional_witness :
    (1 : NodePtr) ≠ 2 ∧
    Node.connect indexedMemory 1 2 2 = indexedMemory 2 ∧
    (Node.connect indexedMemory 1 2 2).position = (indexedMemory 2).position ∧
    (Node.connect indexedMemory 1 2 2).neighbors = (indexedMemory 2).neighbors :=
  ⟨by decide, C10_connect_one_directional indexedMemory 1 2 (by decide)⟩

/-! ## `Position::convert_direction` -/

theorem int_wrap_of_representable (z : Int) (h : INT_MIN ≤ z ∧ z ≤ INT_MAX) :
    int_wrap z = z := by
  simp only [INT_MIN, INT_MAX] at h
  simp only [int_wrap]
  omega

theorem int_wrap_succ_pred (z : Int) (h : INT_MIN ≤ z ∧ z ≤ INT_MAX) :
    int_wrap (int_wrap (z + 1) - 1) = z := by
  simp only [INT_MIN, INT_MAX] at h
  simp only [int_wrap]
  omega

theorem int_wrap_pred_succ (z : Int) (h : INT_MIN ≤ z ∧ z ≤ INT_MAX) :
    int_wrap (int_wrap (z - 1) + 1) = z := by
  simp only [INT_MIN, INT_MAX] at h
  simp only [int_wrap]
  omega

theorem op_eq_iff (p q : Position) : p.op_eq q = true ↔ p = q := by
  cases p; cases q
  simp [Position.op_eq]

/-- C11: for every position whose coordinates are values of `int`, the
extreme values included and `int` arithmetic taken modulo 2^32, moving UP then
DOWN, LEFT then RIGHT, or RIGHT then LEFT gives back the position, both as a
value and according to `operator==`. -/
theorem C11_convert_direction_round_trip (p : Position) (h : p.representable) :
    ((p.convert_direction Direction.UP).convert_direction Direction.DOWN = p ∧
      (p.convert_direction Direction.LEFT).convert_direction Direction.RIGHT = p ∧
      (p.convert_direction Direction.RIGHT).convert_direction Direction.LEFT = p) ∧
    (((p.convert_direction Direction.UP).convert_direction Direction.DOWN).op_eq p = true ∧
      ((p.convert_direction Direction.LEFT).convert_direction Direction.RIGHT).op_eq p = true ∧
      ((p.convert_direction Direction.RIGHT).convert_direction Direction.LEFT).op_eq p = true) := by
  obtain ⟨hx, hy⟩ := h
  have h1 : (p.convert_direction Direction.UP).convert_direction Direction.DOWN = p := by
    cases p
    simp only [Position.convert_direction, Position.mk.injEq, true_and]
    exact int_wrap_succ_pred _ hy
  have h2 : (p.convert_direction Direction.LEFT).convert_direction Direction.RIGHT = p := by
    cases p
    simp only [Position.convert_direction, Position.mk.injEq, and_true]
    exact int_wrap_pred_succ _ hx
  have h3 : (p.convert_direction Direction.RIGHT).convert_direction Direction.LEFT = p := by
    cases p
    simp only [Position.convert_direction, Position.mk.injEq, and_true]
    exact int_wrap_succ_pred _ hx
  exact ⟨⟨h1, h2, h3⟩, (op_eq_iff _ _).mpr h1, (op_eq_iff _ _).mpr h2, (op_eq_iff _ _).mpr h3⟩

/-- C11 at the extreme values: x is the largest and y the smallest `int`. -/
theorem C11_convert_direction_round_trip_witness :
    (⟨2147483647, -2147483648⟩ : Position).representable ∧
    (((⟨2147483647, -2147483648⟩ : Position).convert_direction
        Direction.RIGHT).convert_direction Direction.LEFT = ⟨2147483647, -2147483648⟩) ∧
    (((⟨2147483647, -2147483648⟩ : Position).convert_direction
        Direction.UP).convert_direction Direction.DOWN = ⟨2147483647, -2147483648⟩) :=
  have hr : (⟨2147483647, -2147483648⟩ : Position).representable := by
    simp [Position.representable, INT_MIN, INT_MAX]
  ⟨hr, (C11_convert_direction_round_trip _ hr).1.2.2,
    (C11_convert_direction_round_trip _ hr).1.1⟩

/-- C12 fails as stated: at y = 2147483647, the largest `int`, `y += 1`
overflows; UP does not give (0, 2147483648) but, modulo 2^32, the position
(0, -2147483648). -/
theorem C12_counterexample :
    (⟨0, 2147483647⟩ : Position).representable ∧
    (⟨0, 2147483647⟩ : Position).convert_direction Direction.UP = ⟨0, -2147483648⟩ ∧
    (⟨0, 2147483647⟩ : Position).convert_direction Direction.UP ≠ ⟨0, 2147483647 + 1⟩ := by
  refine ⟨?_, by decide, by decide⟩
  simp [Position.representable, INT_MIN, INT_MAX]

/-- C12 (amended): for every position with `int` coordinates
`convert_direction` returns a position equal on the other axis, and offset by
exactly one unit on the axis of the move whenever the moved coordinate is not
at the extreme value of `int` in that direction: UP gives (x, y+1) if
y < INT_MAX, DOWN gives (x, y-1) if INT_MIN < y, LEFT gives (x-1, y) if
INT_MIN < x, RIGHT gives (x+1, y) if x < INT_MAX.  The four directions are the
only values of `Direction`. -/
theorem C12_convert_direction_offsets (p : Position) (h : p.representable) :
    (p.y < INT_MAX → p.convert_direction Direction.UP = ⟨p.x, p.y + 1⟩) ∧
    (INT_MIN < p.y → p.convert_direction Direction.DOWN = ⟨p.x, p.y - 1⟩) ∧
    (INT_MIN < p.x → p.convert_direction Direction.LEFT = ⟨p.x - 1, p.y⟩) ∧
    (p.x < INT_MAX → p.convert_direction Direction.RIGHT = ⟨p.x + 1, p.y⟩) ∧
    ((p.convert_direction Direction.UP).x = p.x ∧
      (p.convert_direction Direction.DOWN).x = p.x ∧
      (p.convert_direction Direction.LEFT).y = p.y ∧
      (p.convert_direction Direction.RIGHT).y = p.y) ∧
    (∀ d : Direction, d = Direction.UP ∨ d = Direction.DOWN ∨
      d = Direction.RIGHT ∨ d = Direction.LEFT) := by
  obtain ⟨⟨hx1, hx2⟩, ⟨hy1, hy2⟩⟩ := h
  refine ⟨?_, ?_, ?_, ?_, ⟨rfl, rfl, rfl, rfl⟩, ?_⟩
  · intro hlt
    simp only [Position.convert_direction, Position.mk.injEq, true_and]
    apply int_wrap_of_representable
    simp only [INT_MIN, INT_MAX] at *
    omega
  · intro hlt
    simp only [Position.convert_direction, Position.mk.injEq, true_and]
    apply int_wrap_of_representable
    simp only [INT_MIN, INT_MAX] at *
    omega
  · intro hlt
    simp only [Position.convert_direction, Position.mk.injEq, and_true]
    apply int_wrap_of_representable
    simp only [INT_MIN, INT_MAX] at *
    omega
  · intro hlt
    simp only [Position.convert_direction, Position.mk.injEq, and_true]
    apply int_wrap_of_representable
    simp only [INT_MIN, INT_MAX] at *
    omega
  · intro d
    cases d <;> simp

/-- C12 (amended) at the position (0,0) of `main`, moved LEFT and moved UP. -/
theorem C12_convert_direction_offsets_witness :
    (⟨0, 0⟩ : Position).convert_direction Direction.LEFT = ⟨0 - 1, 0⟩ ∧
    (⟨0, 0⟩ : Position).convert_direction Direction.UP = ⟨0, 0 + 1⟩ :=
  have hr : (⟨0, 0⟩ : Position).representable := by
    simp [Position.representable, INT_MIN, INT_MAX]
  ⟨(C12_convert_direction_offsets ⟨0, 0⟩ hr).2.2.1 (by simp [INT_MIN]),
    (C12_convert_direction_offsets ⟨0, 0⟩ hr).1 (by simp [INT_MAX])⟩

/-! ## `BiDirectionalMap` -/

namespace BiDirectionalMap

theorem insert_forward_lookup_self {K V : Type} [DecidableEq K] [DecidableEq V]
    (m : BiDirectionalMap K V) (k : K) (v : V) :
    (m.insert k v).forwardMap.lookup k = some v := by
  simp [insert, AList.lookup_insert]

theorem insert_forward_lookup_ne {K V : Type} [DecidableEq K] [DecidableEq V]
    (m : BiDirectionalMap K V) (k : K) (v : V) {k1 : K} (h : k1 ≠ k) :
    (m.insert k v).forwardMap.lookup k1 = m.forwardMap.lookup k1 := by
  simp [insert, AList.lookup_insert_ne h]

theorem insert_reverse_lookup_self {K V : Type} [DecidableEq K] [DecidableEq V]
    (m : BiDirectionalMap K V) (k : K) (v : V) :
    (m.insert k v).reverseMap.lookup v = some k := by
  simp [insert, AList.lookup_insert]

theorem insert_reverse_lookup_ne {K V : Type} [DecidableEq K] [DecidableEq V]
    (m : BiDirectionalMap K V) (k : K) (v : V) {v1 : V} (h : v1 ≠ v) :
    (m.insert k v).reverseMap.lookup v1 = m.reverseMap.lookup v1 := by
  simp [insert, AList.lookup_insert_ne h]

theorem insert_all_snoc {K V : Type} [DecidableEq K] [DecidableEq V]
    (m : BiDirectionalMap K V) (l : List (K × V)) (kv : K × V) :
    insert_all m (l ++ [kv]) = (insert_all m l).insert kv.1 kv.2 := by
  simp [insert_all, List.foldl_append]

theorem forward_lookup_mem {K V : Type} [DecidableEq K] [DecidableEq V]
    (l : List (K × V)) :
    ∀ (k : K) (v : V),
      (insert_all (empty : BiDirectionalMap K V) l).forwardMap.lookup k = some v →
        (k, v) ∈ l := by
  induction l using List.reverseRecOn with
  | nil => intro k v h; simp [insert_all, empty] at h
  | append_singleton l kv ih =>
    intro k v h
    rw [insert_all_snoc] at h
    by_cases hk : k = kv.1
    · subst hk
      rw [insert_forward_lookup_self] at h
      have hv : kv.2 = v := Option.some.inj h
      subst hv
      simp
    · rw [insert_forward_lookup_ne _ _ _ hk] at h
      exact List.mem_append_left _ (ih k v h)

theorem reverse_lookup_mem {K V : Type} [DecidableEq K] [DecidableEq V]
    (l : List (K × V)) :
    ∀ (k : K) (v : V),
      (insert_all (empty : BiDirectionalMap K V) l).reverseMap.lookup v = some k →
        (k, v) ∈ l := by
  induction l using List.reverseRecOn with
  | nil => intro k v h; simp [insert_all, empty] at h
  | append_singleton l kv ih =>
    intro k v h
    rw [insert_all_snoc] at h
    by_cases hv : v = kv.2
    · subst hv
      rw [insert_reverse_lookup_self] at h
      have hk : kv.1 = k := Option.some.inj h
      subst hk
      simp
    · rw [insert_reverse_lookup_ne _ _ _ hv] at h
      exact List.mem_append_left _ (ih k v h)

theorem forward_lookup_of_mem {K V : Type} [DecidableEq K] [DecidableEq V]
    (l : List (K × V)) :
    (∀ a ∈ l, ∀ b ∈ l, a.1 = b.1 → a.2 = b.2) →
    ∀ (k : K) (v : V), (k, v) ∈ l →
      (insert_all (empty : BiDirectionalMap K V) l).forwardMap.lookup k = some v := by
  induction l using List.reverseRecOn with
  | nil => intro _ k v h; simp at h
  | append_singleton l kv ih =>
    intro hfun k v h
    rw [insert_all_snoc]
    by_cases hk : k = kv.1
    · have hv : v = kv.2 :=
        hfun (k, v) h kv (List.mem_append_right _ (List.mem_singleton_self _)) hk
      subst hk; subst hv
      exact insert_forward_lookup_self _ _ _
    · rw [insert_forward_lookup_ne _ _ _ hk]
      have hl : (k, v) ∈ l := by
        rcases List.mem_append.mp h with h1 | h1
        · exact h1
        · have hkv : (k, v) = kv := List.mem_singleton.mp h1
          exact absurd (congrArg Prod.fst hkv) hk
      exact ih (fun a ha b hb => hfun a (List.mem_append_left _ ha) b
        (List.mem_append_left _ hb)) k v hl

theorem reverse_lookup_of_mem {K V : Type} [DecidableEq K] [DecidableEq V]
    (l : List (K × V)) :
    (∀ a ∈ l, ∀ b ∈ l, a.2 = b.2 → a.1 = b.1) →
    ∀ (k : K) (v : V), (k, v) ∈ l →
      (insert_all (empty : BiDirectionalMap K V) l).reverseMap.lookup v = some k := by
  induction l using List.reverseRecOn with
  | nil => intro _ k v h; simp at h
  | append_singleton l kv ih =>
    intro hfun k v h
    rw [insert_all_snoc]
    by_cases hv : v = kv.2
    · have hk : k = kv.1 :=
        hfun (k, v) h kv (List.mem_append_right _ (List.mem_singleton_self _)) hv
      subst hk; subst hv
      exact insert_reverse_lookup_self _ _ _
    · rw [insert_reverse_lookup_ne _ _ _ hv]
      have hl : (k, v) ∈ l := by
        rcases List.mem_append.mp h with h1 | h1
        · exact h1
        · have hkv : (k, v) = kv := List.mem_singleton.mp h1
          exact absurd (congrArg Prod.snd hkv) hv
      exact ih (fun a ha b hb => hfun a (List.mem_append_left _ ha) b
        (List.mem_append_left _ hb)) k v hl

end BiDirectionalMap

/-- C13: immediately after `insert(k, v)`, `getValueByKey(k)` returns `v`,
`getKeyByValue(v)` returns `k`, and `containsKey(k)` and `containsValue(v)` are
true; and in a map built from the empty one by `insert` calls a value that was
never inserted is not contained. -/
theorem C13_insert_then_lookup {K V : Type} [DecidableEq K] [DecidableEq V]
    (m : BiDirectionalMap K V) (k : K) (v : V) :
    (m.insert k v).getValueByKey k = Except.ok v ∧
    (m.insert k v).getKeyByValue v = Except.ok k ∧
    (m.insert k v).containsKey k = true ∧
    (m.insert k v).containsValue v = true ∧
    (∀ (l : List (K × V)) (w : V), (∀ k1 : K, (k1, w) ∉ l) →
      (BiDirectionalMap.insert_all (BiDirectionalMap.empty : BiDirectionalMap K V)
        l).containsValue w = false) := by
  refine ⟨?_, ?_, ?_, ?_, ?_⟩
  · simp [BiDirectionalMap.getValueByKey, BiDirectionalMap.insert_forward_lookup_self]
  · simp [BiDirectionalMap.getKeyByValue, BiDirectionalMap.insert_reverse_lookup_self]
  · simp [BiDirectionalMap.containsKey, BiDirectionalMap.insert_forward_lookup_self]
  · simp [BiDirectionalMap.containsValue, BiDirectionalMap.insert_reverse_lookup_self]
  · intro l w hw
    simp only [BiDirectionalMap.containsValue]
    cases hl : (BiDirectionalMap.insert_all
        (BiDirectionalMap.empty : BiDirectionalMap K V) l).reverseMap.lookup w with
    | none => rfl
    | some k1 => exact absurd (BiDirectionalMap.reverse_lookup_mem l k1 w hl) (hw k1)

/-- C13 on the map of `main`: the three inserts of `main`, the last of them
being `insert(3, "Three")`, and the value "Four" that was never inserted. -/
theorem C13_insert_then_lookup_witness :
    mainBimap.getValueByKey 3 = Except.ok "Three" ∧
    mainBimap.getKeyByValue "Three" = Except.ok 3 ∧
    mainBimap.containsValue "Four" = false ∧
    mainBimap.getKeyByValue "Two" = Except.ok 2 ∧
    mainBimap.getValueByKey 2 = Except.ok "Two" :=
  have h := C13_insert_then_lookup
    (BiDirectionalMap.insert_all (BiDirectionalMap.empty : BiDirectionalMap Int String)
      [(1, "One"), (2, "Two")]) 3 "Three"
  ⟨h.1, h.2.1,
    h.2.2.2.2 [(1, "One"), (2, "Two"), (3, "Three")] "Four" (fun k1 hk => by simp at hk),
    rfl, rfl⟩

/-- C14: `getValueByKey(k)` throws `out_of_range` exactly when `containsKey(k)`
is false, and `getKeyByValue(v)` throws exactly when `containsValue(v)` is
false; a lookup that does not throw returns the entry stored in the map.  Both
are `const` member functions: their only result is the value or the
exception, the map is the same afterwards. -/
theorem C14_lookup_failure {K V : Type} [DecidableEq K] [DecidableEq V]
    (m : BiDirectionalMap K V) (k : K) (v : V) :
    ((∃ e : String, m.getValueByKey k = Except.error e) ↔ m.containsKey k = false) ∧
    ((∃ e : String, m.getKeyByValue v = Except.error e) ↔ m.containsValue v = false) ∧
    (∀ w : V, m.getValueByKey k = Except.ok w ↔ m.forwardMap.lookup k = some w) ∧
    (∀ j : K, m.getKeyByValue v = Except.ok j ↔ m.reverseMap.lookup v = some j) := by
  refine ⟨?_, ?_, ?_, ?_⟩
  · cases h : m.forwardMap.lookup k <;>
      simp [BiDirectionalMap.getValueByKey, BiDirectionalMap.containsKey, h]
  · cases h : m.reverseMap.lookup v <;>
      simp [BiDirectionalMap.getKeyByValue, BiDirectionalMap.containsValue, h]
  · intro w
    cases h : m.forwardMap.lookup k <;> simp [BiDirectionalMap.getValueByKey, h]
  · intro j
    cases h : m.reverseMap.lookup v <;> simp [BiDirectionalMap.getKeyByValue, h]

/-- C15 fails as stated: after `insert(1, "a")`, `insert(1, "b")` the reverse
mapping still maps "a" to 1 while the forward mapping maps 1 to "b". -/
theorem C15_counterexample :
    ¬ ((BiDirectionalMap.insert_all (BiDirectionalMap.empty : BiDirectionalMap Int String)
          [(1, "a"), (1, "b")]).forwardMap.lookup 1 = some "a" ↔
       (BiDirectionalMap.insert_all (BiDirectionalMap.empty : BiDirectionalMap Int String)
          [(1, "a"), (1, "b")]).reverseMap.lookup "a" = some 1) := by
  decide

/-- C15 (amended): in every map reached from the empty one by a sequence of
`insert` calls without collision, that is, in which two inserted pairs have the
same key exactly when they have the same value, the forward mapping maps `k` to
`v` if and only if the reverse mapping maps `v` to `k`. -/
theorem C15_inverse_without_collision {K V : Type} [DecidableEq K] [DecidableEq V]
    (l : List (K × V))
    (hcoll : ∀ a ∈ l, ∀ b ∈ l, (a.1 = b.1 ↔ a.2 = b.2)) (k : K) (v : V) :
    (BiDirectionalMap.insert_all (BiDirectionalMap.empty : BiDirectionalMap K V)
        l).forwardMap.lookup k = some v ↔
    (BiDirectionalMap.insert_all (BiDirectionalMap.empty : BiDirectionalMap K V)
        l).reverseMap.lookup v = some k := by
  constructor
  · intro h
    exact BiDirectionalMap.reverse_lookup_of_mem l
      (fun a ha b hb => (hcoll a ha b hb).mpr) k v (BiDirectionalMap.forward_lookup_mem l k v h)
  · intro h
    exact BiDirectionalMap.forward_lookup_of_mem l
      (fun a ha b hb => (hcoll a ha b hb).mp) k v (BiDirectionalMap.reverse_lookup_mem l k v h)

/-- C15 (amended) on the three inserts of `main`. -/
theorem C15_inverse_without_collision_witness :
    mainBimap.forwardMap.lookup 2 = some "Two" ↔ mainBimap.reverseMap.lookup "Two" = some 2 :=
  C15_inverse_without_collision [(1, "One"), (2, "Two"), (3, "Three")]
    (by decide) 2 "Two"

/-- C18: after `insert(k, v1)` then `insert(k, v2)` with `v1 ≠ v2`,
`getValueByKey(k)` returns `v2` while the reverse entry of `v1` survives:
`containsValue(v1)` is true and `getKeyByValue(v1)` returns `k`.  After
`insert(k1, v)` then `insert(k2, v)` with `k1 ≠ k2`, `getKeyByValue(v)` returns
`k2` while `getValueByKey(k1)` still returns `v`.  `insert` has no failure
case. -/
theorem C18_overwrite_leaves_stale_entry {K V : Type} [DecidableEq K] [DecidableEq V]
    (m : BiDirectionalMap K V) (k k1 k2 : K) (v v1 v2 : V)
    (hv : v1 ≠ v2) (hk : k1 ≠ k2) :
    (((m.insert k v1).insert k v2).getValueByKey k = Except.ok v2 ∧
      ((m.insert k v1).insert k v2).containsValue v1 = true ∧
      ((m.insert k v1).insert k v2).getKeyByValue v1 = Except.ok k) ∧
    (((m.insert k1 v).insert k2 v).getKeyByValue v = Except.ok k2 ∧
      ((m.insert k1 v).insert k2 v).getValueByKey k1 = Except.ok v) := by
  have hr : ((m.insert k v1).insert k v2).reverseMap.lookup v1 = some k := by
    rw [BiDirectionalMap.insert_reverse_lookup_ne _ _ _ hv,
      BiDirectionalMap.insert_reverse_lookup_self]
  have hf : ((m.insert k1 v).insert k2 v).forwardMap.lookup k1 = some v := by
    rw [BiDirectionalMap.insert_forward_lookup_ne _ _ _ hk,
      BiDirectionalMap.insert_forward_lookup_self]
  refine ⟨⟨?_, ?_, ?_⟩, ?_, ?_⟩
  · simp [BiDirectionalMap.getValueByKey, BiDirectionalMap.insert_forward_lookup_self]
  · simp [BiDirectionalMap.containsValue, hr]
  · simp [BiDirectionalMap.getKeyByValue, hr]
  · simp [BiDirectionalMap.getKeyByValue, BiDirectionalMap.insert_reverse_lookup_self]
  · simp [BiDirectionalMap.getValueByKey, hf]

/-- C18 on the map of `main`: key 2 is given the new value "Deux", and the
value "Two" is given the new key 7. -/
theorem C18_overwrite_leaves_stale_entry_witness :
    (((mainBimap.insert 2 "Two").insert 2 "Deux").getValueByKey 2 = Except.ok "Deux" ∧
      ((mainBimap.insert 2 "Two").insert 2 "Deux").containsValue "Two" = true ∧
      ((mainBimap.insert 2 "Two").insert 2 "Deux").getKeyByValue "Two" = Except.ok 2) ∧
    (((mainBimap.insert 2 "Two").insert 7 "Two").getKeyByValue "Two" = Except.ok 7 ∧
      ((mainBimap.insert 2 "Two").insert 7 "Two").getValueByKey 2 = Except.ok "Two") :=
  C18_overwrite_leaves_stale_entry mainBimap 2 2 7 "Two" "Two" "Deux" (by decide) (by decide)

/-! ## A node built by the constructor has no index -/

theorem connect_preserves_null (mem : Memory) (t n a : NodePtr)
    (h : (mem a).neighbors = none) : Node.connect mem t n a = mem a := by
  by_cases hta : t = a
  · subst hta
    rw [connect_of_null n h]
  · cases hnb : (mem t).neighbors with
    | none => rw [connect_of_null n hnb]
    | some nb =>
      cases htr : nb.is_neighbor n with
      | true => rw [connect_of_tracked hnb htr]
      | false =>
        rw [connect_of_untracked hnb htr]
        exact Function.update_noteq (Ne.symm hta) _ _

theorem connect_all_preserves_null (calls : List (NodePtr × NodePtr)) :
    ∀ (mem : Memory) (a : NodePtr), (mem a).neighbors = none →
      Node.connect_all mem calls a = mem a := by
  induction calls with
  | nil => intro mem a _; rfl
  | cons c calls ih =>
    intro mem a h
    have h1 := connect_preserves_null mem c.1 c.2 a h
    have h2 : (Node.connect mem c.1 c.2 a).neighbors = none := by rw [h1]; exact h
    have h3 := ih (Node.connect mem c.1 c.2) a h2
    simp only [Node.connect_all, List.foldl_cons] at h3 ⊢
    rw [h3, h1]

/-- C16: a node built by `Node(x, y)` has a null index; after any sequence
of `connect` calls (on any receivers and arguments) the node is still the one
the constructor built, so its index is still null; `connect` on it returns
normally and leaves the whole memory unchanged; `get_neighbors` on it
dereferences the null pointer. -/
theorem C16_constructed_node_keeps_null_index (mem : Memory) (a : NodePtr) (x y : Int)
    (h : mem a = Node.new x y) (calls : List (NodePtr × NodePtr)) (b : NodePtr) :
    (mem a).neighbors = none ∧
    Node.connect_all mem calls a = Node.new x y ∧
    (Node.connect_all mem calls a).neighbors = none ∧
    Node.connect (Node.connect_all mem calls) a b = Node.connect_all mem calls ∧
    Node.get_neighbors (Node.connect_all mem calls) a = none := by
  have h0 : (mem a).neighbors = none := by rw [h]; rfl
  have h1 : Node.connect_all mem calls a = Node.new x y := by
    rw [connect_all_preserves_null calls mem a h0, h]
  have h2 : (Node.connect_all mem calls a).neighbors = none := by rw [h1]; rfl
  refine ⟨h0, h1, h2, connect_of_null b h2, ?_⟩
  simp [Node.get_neighbors, h2]

/-- C16 on the nodes of `main`: `node1` after `node1.connect(&node2)`,
`node2.connect(&node3)`, `node3.connect(&node1)`. -/
theorem C16_constructed_node_keeps_null_index_witness :
    (mainMemory 1).neighbors = none ∧
    Node.connect_all mainMemory [(1, 2), (2, 3), (3, 1)] 1 = Node.new 1 2 ∧
    (Node.connect_all mainMemory [(1, 2), (2, 3), (3, 1)] 1).neighbors = none ∧
    Node.connect (Node.connect_all mainMemory [(1, 2), (2, 3), (3, 1)]) 1 2 =
      Node.connect_all mainMemory [(1, 2), (2, 3), (3, 1)] ∧
    Node.get_neighbors (Node.connect_all mainMemory [(1, 2), (2, 3), (3, 1)]) 1 = none :=
  C16_constructed_node_keeps_null_index mainMemory 1 1 2 rfl [(1, 2), (2, 3), (3, 1)] 2

/-! ## `remove` of an untracked node, and `add` followed by `remove` -/

theorem alist_erase_insert {α β : Type} [DecidableEq α] (m : AList (fun _ : α => β))
    (a : α) (b : β) (h : m.lookup a = none) : (m.insert a b).erase a = m := by
  have hn : a ∉ m := AList.lookup_eq_none.mp h
  apply AList.ext
  simp only [AList.erase, AList.insert_entries_of_neg hn]
  exact List.kerase_cons_eq rfl

theorem remove_of_untracked {s : Neighbors} {n : NodePtr}
    (h : s.neighbors_inverted.lookup n = none) :
    remove s n = ⟨s.neighbors.erase Position.default, s.neighbors_inverted⟩ := by
  simp only [remove, subscript_of_lookup_none h]
  rw [alist_erase_insert _ _ _ h]

/-- C17: when `n` is not tracked, `remove(n)` returns normally: `operator[]`
yields the value-initialised position (0,0), the identity mapping is the same
as before (`n` is still untracked), and the position mapping is the same as
before except that an entry at (0,0), if any, is erased. -/
theorem C17_remove_untracked (s : Neighbors) (n : NodePtr)
    (h : s.is_neighbor n = false) :
    (subscript s.neighbors_inverted n).1 = ⟨0, 0⟩ ∧
    (remove s n).neighbors_inverted = s.neighbors_inverted ∧
    (remove s n).is_neighbor n = false ∧
    (remove s n).neighbors = s.neighbors.erase ⟨0, 0⟩ ∧
    (remove s n).neighbors.lookup ⟨0, 0⟩ = none ∧
    (∀ q : Position, q ≠ ⟨0, 0⟩ →
      (remove s n).neighbors.lookup q = s.neighbors.lookup q) := by
  have hl : s.neighbors_inverted.lookup n = none := by
    simpa [is_neighbor] using h
  have hr := remove_of_untracked hl
  refine ⟨?_, ?_, ?_, ?_, ?_, ?_⟩
  · rw [subscript_of_lookup_none hl]; rfl
  · rw [hr]
  · rw [hr]; exact h
  · rw [hr]; rfl
  · rw [hr]; exact AList.lookup_erase _ _
  · intro q hq
    rw [hr]
    exact AList.lookup_erase_ne hq

/-- C17 at a concrete index: node 7 is tracked at (0,0), node 8 at (5,6);
`remove(9)` of the untracked node 9 erases the entry of the position mapping at
(0,0) and keeps node 7 in the identity mapping. -/
theorem C17_remove_untracked_witness :
    (remove (run (fun n => if n = 7 then ⟨0, 0⟩ else ⟨5, 6⟩) [Call.add 7, Call.add 8])
        9).neighbors.lookup ⟨0, 0⟩ = none ∧
    (remove (run (fun n => if n = 7 then ⟨0, 0⟩ else ⟨5, 6⟩) [Call.add 7, Call.add 8])
        9).neighbors_inverted.lookup 7 = some ⟨0, 0⟩ :=
  have h := C17_remove_untracked
    (run (fun n => if n = 7 then ⟨0, 0⟩ else ⟨5, 6⟩) [Call.add 7, Call.add 8]) 9 (by decide)
  ⟨h.2.2.2.2.1, by rw [h.2.1]; decide⟩

theorem remove_add (pos : NodePtr → Position) (s : Neighbors) (n : NodePtr) :
    remove (add pos s n) n =
      ⟨(s.neighbors.insert (pos n) n).erase (pos n),
        (s.neighbors_inverted.insert n (pos n)).erase n⟩ := by
  have h := add_inverted_lookup_self pos s n
  simp only [remove, subscript_of_lookup_some h]
  rfl

/-- C20: when `n` is not tracked and its position `p` is no key of the
position mapping, `add(n)` followed by `remove(n)` gives back the original
index (both mappings).  When `p` is occupied by another tracked node `m`, the
same two calls leave no entry at `p` in the position mapping while `m` stays in
the identity mapping with its recorded position. -/
theorem C20_add_then_remove (pos : NodePtr → Position) (s : Neighbors) (n : NodePtr) :
    (s.is_neighbor n = false → s.is_neighbor_at (pos n) = false →
      remove (add pos s n) n = s) ∧
    (∀ m : NodePtr, m ≠ n → s.neighbors.lookup (pos n) = some m →
      s.is_neighbor m = true →
      (remove (add pos s n) n).neighbors.lookup (pos n) = none ∧
      (remove (add pos s n) n).is_neighbor_at (pos n) = false ∧
      (remove (add pos s n) n).is_neighbor m = true ∧
      (remove (add pos s n) n).neighbors_inverted.lookup m =
        s.neighbors_inverted.lookup m) := by
  constructor
  · intro hn hp
    have hn1 : s.neighbors_inverted.lookup n = none := by simpa [is_neighbor] using hn
    have hp1 : s.neighbors.lookup (pos n) = none := by simpa [is_neighbor_at] using hp
    rw [remove_add, alist_erase_insert _ _ _ hn1, alist_erase_insert _ _ _ hp1]
  · intro m hmn _ hm
    have h1 : (remove (add pos s n) n).neighbors.lookup (pos n) = none := by
      rw [remove_add]; exact AList.lookup_erase _ _
    have h2 : (remove (add pos s n) n).neighbors_inverted.lookup m =
        s.neighbors_inverted.lookup m := by
      rw [remove_inverted_lookup_ne _ _ hmn, add_inverted_lookup_ne _ _ _ hmn]
    refine ⟨h1, ?_, ?_, h2⟩
    · simp [is_neighbor_at, h1]
    · have hu : (remove (add pos s n) n).is_neighbor m =
          ((remove (add pos s n) n).neighbors_inverted.lookup m).isSome := rfl
      rw [hu, h2]
      exact hm

/-- C20 at a concrete index, both cases: node 9 at the free position (9,9) is
added to and removed from an index tracking nodes 7 and 8; and node 6, which
stands at (3,4) like the tracked node 7, is added and removed. -/
theorem C20_add_then_remove_witness :
    remove (add (fun n => if n = 9 then ⟨9, 9⟩ else if n = 8 then ⟨5, 6⟩ else ⟨3, 4⟩)
        (run (fun n => if n = 9 then ⟨9, 9⟩ else if n = 8 then ⟨5, 6⟩ else ⟨3, 4⟩)
          [Call.add 7, Call.add 8]) 9) 9 =
      run (fun n => if n = 9 then ⟨9, 9⟩ else if n = 8 then ⟨5, 6⟩ else ⟨3, 4⟩)
        [Call.add 7, Call.add 8] ∧
    (remove (add (fun n => if n = 9 then ⟨9, 9⟩ else if n = 8 then ⟨5, 6⟩ else ⟨3, 4⟩)
        (run (fun n => if n = 9 then ⟨9, 9⟩ else if n = 8 then ⟨5, 6⟩ else ⟨3, 4⟩)
          [Call.add 7, Call.add 8]) 6) 6).neighbors.lookup ⟨3, 4⟩ = none ∧
    (remove (add (fun n => if n = 9 then ⟨9, 9⟩ else if n = 8 then ⟨5, 6⟩ else ⟨3, 4⟩)
        (run (fun n => if n = 9 then ⟨9, 9⟩ else if n = 8 then ⟨5, 6⟩ else ⟨3, 4⟩)
          [Call.add 7, Call.add 8]) 6) 6).is_neighbor 7 = true :=
  ⟨(C20_add_then_remove _ _ 9).1 (by decide) (by decide),
    ((C20_add_then_remove (fun n => if n = 9 then ⟨9, 9⟩ else if n = 8 then ⟨5, 6⟩ else ⟨3, 4⟩)
      (run (fun n => if n = 9 then ⟨9, 9⟩ else if n = 8 then ⟨5, 6⟩ else ⟨3, 4⟩)
        [Call.add 7, Call.add 8]) 6).2 7 (by decide) (by decide) (by decide)).1,
    ((C20_add_then_remove (fun n => if n = 9 then ⟨9, 9⟩ else if n = 8 then ⟨5, 6⟩ else ⟨3, 4⟩)
      (run (fun n => if n = 9 then ⟨9, 9⟩ else if n = 8 then ⟨5, 6⟩ else ⟨3, 4⟩)
        [Call.add 7, Call.add 8]) 6).2 7 (by decide) (by decide) (by decide)).2.2.1⟩

/-! ## The inverse relation under the conditions of use -/

theorem backward_empty : Backward empty := by
  intro n p h; simp [empty] at h

theorem backward_add (pos : NodePtr → Position) (hinj : Function.Injective pos)
    (s : Neighbors) (a : NodePtr) (hc : Consistent pos s) (hb : Backward s) :
    Backward (add pos s a) := by
  intro n q hl
  by_cases hna : n = a
  · subst hna
    rw [add_inverted_lookup_self] at hl
    have hq : pos n = q := Option.some.inj hl
    subst hq
    exact add_neighbors_lookup_self pos s n
  · rw [add_inverted_lookup_ne pos s a hna] at hl
    have hq : q = pos n := hc.2 n q hl
    have hne : q ≠ pos a := by
      rw [hq]
      intro hpos
      exact hna (hinj hpos)
    rw [add_neighbors_lookup_ne pos s a hne]
    exact hb n q hl

theorem backward_remove (s : Neighbors) (a : NodePtr) (hb : Backward s)
    (ht : s.is_neighbor a = true) : Backward (remove s a) := by
  simp only [is_neighbor, Option.isSome_iff_exists] at ht
  obtain ⟨p, hp⟩ := ht
  intro n q hl
  by_cases hna : n = a
  · subst hna
    rw [remove_inverted_lookup_self] at hl
    exact absurd hl (by simp)
  · rw [remove_inverted_lookup_ne s a hna] at hl
    have hn := hb n q hl
    have hqp : q ≠ p := by
      intro hqp
      subst hqp
      have ha := hb a q hp
      rw [hn] at ha
      exact hna (Option.some.inj ha)
    rw [remove_neighbors_of_tracked hp, AList.lookup_erase_ne hqp]
    exact hn

theorem backward_foldl_add (pos : NodePtr → Position) (hinj : Function.Injective pos)
    (l : List NodePtr) :
    ∀ s0 : Neighbors, Consistent pos s0 → Backward s0 →
      Backward (l.foldl (add pos) s0) := by
  induction l with
  | nil => intro s0 _ hb; exact hb
  | cons a l ih =>
    intro s0 hc hb
    exact ih _ (consistent_add pos s0 a hc) (backward_add pos hinj s0 a hc hb)

theorem backward_update (pos : NodePtr → Position) (hinj : Function.Injective pos)
    (s : Neighbors) : Backward (update pos s) :=
  backward_foldl_add pos hinj _ empty (consistent_empty pos) backward_empty

theorem inverse_foldl_call (pos : NodePtr → Position) (hinj : Function.Injective pos)
    (calls : List Call) :
    ∀ s0 : Neighbors, Consistent pos s0 → Backward s0 →
      removes_tracked pos s0 calls = true →
      Consistent pos (calls.foldl (call pos) s0) ∧ Backward (calls.foldl (call pos) s0) := by
  induction calls with
  | nil => intro s0 hc hb _; exact ⟨hc, hb⟩
  | cons c calls ih =>
    intro s0 hc hb hrem
    simp only [removes_tracked, Bool.and_eq_true] at hrem
    obtain ⟨hhead, hrest⟩ := hrem
    have hc1 := consistent_call pos s0 c hc
    have hb1 : Backward (call pos s0 c) := by
      cases c with
      | add node => exact backward_add pos hinj s0 node hc hb
      | remove node => exact backward_remove s0 node hb hhead
      | update => exact backward_update pos hinj s0
    exact ih _ hc1 hb1 hrest

theorem alist_entries_length_le {α β : Type} [DecidableEq α] [DecidableEq β]
    (m1 : AList (fun _ : α => β)) (m2 : AList (fun _ : β => α))
    (h : ∀ (a : α) (b : β), m1.lookup a = some b → m2.lookup b = some a) :
    m1.entries.length ≤ m2.entries.length := by
  have hlook : ∀ x ∈ m1.entries, m1.lookup x.1 = some x.2 := by
    intro x hx
    exact (@AList.mem_lookup_iff _ _ _ x.1 x.2 m1).mpr hx
  have hnd : (m1.entries.map Sigma.snd).Nodup := by
    refine List.Nodup.map_on ?_ m1.nodupKeys.nodup
    intro x hx y hy hxy
    have hx1 := h _ _ (hlook x hx)
    have hy1 := h _ _ (hlook y hy)
    rw [hxy] at hx1
    have hfst : x.1 = y.1 := Option.some.inj (hx1.symm.trans hy1)
    cases x; cases y
    simp only at hfst hxy
    subst hfst; subst hxy; rfl
  have hsub : m1.entries.map Sigma.snd ⊆ m2.keys := by
    intro b hb
    obtain ⟨x, hx, rfl⟩ := List.mem_map.mp hb
    have hx1 := h _ _ (hlook x hx)
    rw [← AList.mem_keys, ← AList.lookup_isSome, hx1]
    rfl
  have hle := (hnd.subperm hsub).length_le
  simpa [AList.keys, List.keys] using hle

/-- C19: if distinct nodes have distinct positions (positions fixed) and
every `remove` is applied to a node tracked at that time, then in the index
reached from the empty one by the calls the position mapping maps `p` to `n`
if and only if the identity mapping maps `n` to `p`, the two mappings have
the same number of entries, and `is_neighbor(n)` equals
`is_neighbor(position of n)` for every node `n`. -/
theorem C19_conditional_inverse (pos : NodePtr → Position)
    (hinj : Function.Injective pos) (calls : List Call)
    (hrem : removes_tracked pos empty calls = true) :
    (∀ (p : Position) (n : NodePtr),
      (run pos calls).neighbors.lookup p = some n ↔
        (run pos calls).neighbors_inverted.lookup n = some p) ∧
    (run pos calls).neighbors.entries.length =
      (run pos calls).neighbors_inverted.entries.length ∧
    (∀ n : NodePtr, (run pos calls).is_neighbor n = (run pos calls).is_neighbor_at (pos n)) := by
  obtain ⟨hc, hb⟩ :=
    inverse_foldl_call pos hinj calls empty (consistent_empty pos) backward_empty hrem
  have hc0 : Consistent pos (run pos calls) := hc
  have hb0 : Backward (run pos calls) := hb
  refine ⟨fun p n => ⟨hc0.1 p n, hb0 n p⟩, ?_, ?_⟩
  · exact Nat.le_antisymm (alist_entries_length_le _ _ hc0.1)
      (alist_entries_length_le _ _ hb0)
  · intro n
    rw [Bool.eq_iff_iff]
    simp only [is_neighbor, is_neighbor_at, Option.isSome_iff_exists]
    constructor
    · rintro ⟨p, hp⟩
      have hpn : p = pos n := hc0.2 n p hp
      subst hpn
      exact ⟨n, hb0 n _ hp⟩
    · rintro ⟨m, hm⟩
      have hinv := hc0.1 _ _ hm
      have hpos : pos n = pos m := hc0.2 m _ hinv
      have hmn : n = m := hinj hpos
      subst hmn
      exact ⟨_, hinv⟩

/-- C19 at a concrete run: node `n` stands at (n, 0); nodes 7 and 8 are added,
7 is removed, the index is updated and 9 is added. -/
theorem C19_conditional_inverse_witness :
    (run (fun n => ⟨n, 0⟩)
        [Call.add 7, Call.add 8, Call.remove 7, Call.update, Call.add 9]).neighbors.entries.length =
      (run (fun n => ⟨n, 0⟩)
        [Call.add 7, Call.add 8, Call.remove 7, Call.update,
          Call.add 9]).neighbors_inverted.entries.length ∧
    (run (fun n => ⟨n, 0⟩)
        [Call.add 7, Call.add 8, Call.remove 7, Call.update, Call.add 9]).is_neighbor 8 =
      (run (fun n => ⟨n, 0⟩)
        [Call.add 7, Call.add 8, Call.remove 7, Call.update,
          Call.add 9]).is_neighbor_at ((fun n : NodePtr => (⟨n, 0⟩ : Position)) 8) :=
  have h := C19_conditional_inverse (fun n => ⟨n, 0⟩)
    (fun a b hab => by
      have hx := congrArg Position.x hab
      simpa using hx)
    [Call.add 7, Call.add 8, Call.remove 7, Call.update, Call.add 9] (by decide)
  ⟨h.2.1, h.2.2 8⟩

end Fold
